import Mathlib

/-!
Verification development for two XNNPACK micro-kernels:

* `src/qs8-dwconv/gen/up8x9-minmax-avx2-mul32.c`
  (`xnn_qs8_dwconv_minmax_ukernel_up8x9__avx2_mul32`): a quantized
  depthwise-convolution micro-kernel with channel tile R = 8 and filter
  footprint K = 9, including its fixed-point requantization pipeline.

* `src/x32-depth-to-space-chw2hwc/gen/scalar-c1-ib2.c`
  (`xnn_x32_depth_to_space_chw2hwc_ukernel__scalar_c1_ib2`): a pure strided
  copy rearranging a CHW tensor into HWC with block expansion.

The AVX2 intrinsics are embedded per 32-bit lane over `Int`, with explicit
two's-complement wrapping (`wrap32`) where the machine wraps.  Memory is
byte-addressed: `Nat → Int` functions give the signed value stored at an
address.  Each kernel is embedded as a function producing the list of writes
(address/value pairs) it performs, so that store ordering, store addresses
and stored values are all visible to the theorems.
-/

namespace XnnPack

/-- Two's-complement wrap of an integer into the signed 32-bit range
`[-2^31, 2^31)`.  This is the effect of any 32-bit lane operation
(`_mm256_add_epi32`, `_mm256_mullo_epi32`, `_mm256_sub_epi32`, ...) on the
mathematical result. -/
def wrap32 (x : Int) : Int := (x + 2 ^ 31) % 2 ^ 32 - 2 ^ 31

/-- The unsigned 32-bit pattern holding the same low 32 bits as `x`. -/
def toN32 (x : Int) : Nat := (x % 2 ^ 32).toNat

/-- Reinterpret an unsigned 32-bit pattern as a signed 32-bit value. -/
def sign32 (n : Nat) : Int :=
  if n % 2 ^ 32 < 2 ^ 31 then ((n % 2 ^ 32 : Nat) : Int)
  else ((n % 2 ^ 32 : Nat) : Int) - 2 ^ 32

/-- Bitwise AND of two signed 32-bit lanes (`_mm256_and_si256`, per lane). -/
def and32 (a b : Int) : Int := sign32 (toN32 a &&& toN32 b)

/-- Sign-extension of the low 8 bits of a value: the effect of
`_mm256_cvtepi8_epi32` on one loaded byte.  On values already in the signed
8-bit range this is the identity. -/
def sext8 (x : Int) : Int := (x + 2 ^ 7) % 2 ^ 8 - 2 ^ 7

/-- 32-bit lane addition with wrap-around (`_mm256_add_epi32`). -/
def add32 (a b : Int) : Int := wrap32 (a + b)

/-- Low 32 bits of a 32x32 product (`_mm256_mullo_epi32`, per lane). -/
def mullo32 (a b : Int) : Int := wrap32 (a * b)

/-- Arithmetic right shift of a signed 32-bit lane by `s`
(`_mm256_sra_epi32` with shift count `s`).  For values in the signed
32-bit range, flooring division by `2^s` agrees with the intrinsic for
every count, including counts of 32 and above (sign fill). -/
def sra32 (x : Int) (s : Nat) : Int := x / 2 ^ s

/-!
Requantization pipeline of the kernel, lines 142-174 (and its verbatim
duplicate in the tail block, lines 238-267), embedded per 32-bit lane.

On the Q31 multiply (lines 142-154): the code forms 64-bit products
`_mm256_mul_epi32(acc, multiplier)` for the even lanes and, after
`_mm256_srli_epi64(acc, 32)`, for the odd lanes; adds the 64-bit rounding
constant 2^30; then extracts bits [31:62] of each 64-bit sum into a 32-bit
lane (`_mm256_srli_epi64 _ 31` for the even lanes, a doubling plus
`_mm256_blend_epi16 _ _ 0xCC` for the odd lanes).  Per lane both paths
compute the same function of the lane's accumulator, embedded here:
bits [31:62] of `acc * multiplier + 2^30` reinterpreted as a signed 32-bit
value, i.e. the 32-bit wrap of the floor of `(acc * multiplier + 2^30) / 2^31`.
-/

/-- The "Q31 product" of one accumulator lane with the multiplier
(lines 142-154): bits [31:62] of the exact 64-bit `acc * multiplier + 2^30`,
reinterpreted as signed 32 bits. -/
def q31 (acc multiplier : Int) : Int :=
  wrap32 ((acc * multiplier + 2 ^ 30) / 2 ^ 31)

/-- Remainder step, lines 156-158: `_mm256_add_epi32` of
`_mm256_and_si256(q31prod, remainder_mask)` with
`_mm256_cmpgt_epi32(0, q31prod)`.  The comparison lane is the all-ones mask,
i.e. the integer -1, when `q31prod < 0`, and 0 otherwise. -/
def remStep (p mask : Int) : Int :=
  wrap32 (and32 p mask + (if p < 0 then (-1 : Int) else 0))

/-- Shift-and-correct step, lines 160-163: `_mm256_sub_epi32` of
`_mm256_sra_epi32(q31prod, shift)` and
`_mm256_cmpgt_epi32(rem, remainder_threshold)` (again an all-ones = -1 lane
when the comparison holds, so the subtraction adds 1). -/
def scaleStep (p : Int) (s : Nat) (mask threshold : Int) : Int :=
  wrap32 (sra32 p s - (if threshold < remStep p mask then (-1 : Int) else 0))

/-- `_mm_packs_epi32`, per lane: narrow a signed 32-bit value to 16 bits with
saturation. -/
def packs32 (x : Int) : Int := max (-(2 ^ 15)) (min (2 ^ 15 - 1) x)

/-- `_mm_adds_epi16`, per lane: saturating 16-bit addition (operands are
16-bit values here: the left one by construction, the zero point by the
parameter invariant). -/
def adds16 (a b : Int) : Int := max (-(2 ^ 15)) (min (2 ^ 15 - 1) (a + b))

/-- `_mm_packs_epi16`, per lane: narrow a signed 16-bit value to 8 bits with
saturation. -/
def packs16 (x : Int) : Int := max (-(2 ^ 7)) (min (2 ^ 7 - 1) x)

/-- The quantization parameter block (`params->sse2`, as read by the kernel):
one multiplier, shift and derived remainder constants, plus output zero point
and clamping bounds, all broadcast across lanes. -/
structure Params where
  multiplier : Int
  shift : Nat
  remainderMask : Int
  remainderThreshold : Int
  outputZeroPoint : Int
  outputMin : Int
  outputMax : Int
deriving DecidableEq

/-- Full requantization of one 32-bit accumulator lane to the stored signed
8-bit output, lines 142-174: Q31 multiply, shift with remainder correction,
saturating narrow to 16 bits, saturating zero-point addition,
`_mm_min_epi16`/`_mm_max_epi16` clamping, saturating narrow to 8 bits. -/
def requant (P : Params) (acc : Int) : Int :=
  packs16 (min P.outputMax (max P.outputMin
    (adds16 (packs32 (scaleStep (q31 acc P.multiplier) P.shift
      P.remainderMask P.remainderThreshold)) P.outputZeroPoint)))

/-- One store performed by a kernel: the byte address written and the value
stored there (a signed 8-bit value for the dwconv kernel, a 32-bit element
for the depth-to-space kernel). -/
structure Write where
  addr : Nat
  val : Int
deriving DecidableEq

/-- Environment of one `xnn_qs8_dwconv_minmax_ukernel_up8x9__avx2_mul32`
call: the caller-owned inputs the kernel only reads.

* `channels`, `inputStride`, `outputIncrement`, `inputOffset`: the size_t
  arguments of the same names (`input_stride`, `output_increment`,
  `input_offset`).
* `itab cur k` is the pointer stored in the indirection table entry `k` when
  the table cursor (the `input` argument, advanced by `input_stride` bytes
  per column, line 78) sits at byte position `cur`; pointers are modelled as
  byte addresses.
* `imem a` is the signed 8-bit value readable at byte address `a` (all input
  rows and the zero buffer live in this one address space).
* `wbias a` is the signed 32-bit bias stored at byte offset `a` of the packed
  weight buffer (the kernel reads these at 4-byte-aligned offsets);
  `wwt a` is the signed 8-bit weight stored at byte offset `a`.
* `zero` is the address of the zero buffer (the `zero` argument, compared by
  identity against the tap pointers). -/
structure Env where
  channels : Nat
  itab : Nat → Nat → Nat
  imem : Nat → Int
  wbias : Nat → Int
  wwt : Nat → Int
  inputStride : Nat
  outputIncrement : Nat
  inputOffset : Nat
  zero : Nat
  params : Params

/-- Tap pointer setup, lines 33-77: load `input[k]`, and if it is not
(identically) the zero pointer, advance it by `input_offset` bytes. -/
def tapPtr (e : Env) (cur k : Nat) : Nat :=
  if e.itab cur k ≠ e.zero then e.itab cur k + e.inputOffset else e.itab cur k

/-- Accumulator of lane `j` (channel `8*t + j`) in channel tile `t` of the
column whose indirection cursor is `cur`, with `wb` the byte offset of the
tile inside the packed weight buffer; lines 83-138.  The lane starts from the
packed 32-bit bias (`_mm256_loadu_si256` at `w`, lane `j` at byte `wb+4*j`),
then for each tap `k = 0..8` sign-extends the 8-bit input at the tap pointer
plus `8*t + j` (each full tile advances every tap pointer by 8, lines 88-136)
and the 8-bit weight at byte `wb + 32 + 8*k + j`, and accumulates their
product with wrapping 32-bit lane arithmetic. -/
def accLane (e : Env) (cur t wb j : Nat) : Int :=
  (List.range 9).foldl
    (fun acc k =>
      add32 acc (mullo32 (sext8 (e.imem (tapPtr e cur k + 8 * t + j)))
                         (sext8 (e.wwt (wb + 32 + 8 * k + j)))))
    (wrap32 (e.wbias (wb + 4 * j)))

/-- Requantized output byte of lane `j` of a full channel tile,
lines 142-174. -/
def voutLane (e : Env) (cur t wb j : Nat) : Int :=
  requant e.params (accLane e cur t wb j)

/-- The tail block, lines 179-234, repeats the accumulation text of the main
tile loop verbatim (same full-width loads, same lane arithmetic), at the
weight offset and tap-pointer positions reached after the full tiles. -/
def accLaneTail (e : Env) (cur t wb j : Nat) : Int :=
  (List.range 9).foldl
    (fun acc k =>
      add32 acc (mullo32 (sext8 (e.imem (tapPtr e cur k + 8 * t + j)))
                         (sext8 (e.wwt (wb + 32 + 8 * k + j)))))
    (wrap32 (e.wbias (wb + 4 * j)))

/-- Requantized output byte of lane `j` in the tail block: lines 238-267
repeat the requantization text of the main tile loop verbatim. -/
def voutLaneTail (e : Env) (cur t wb j : Nat) : Int :=
  requant e.params (accLaneTail e cur t wb j)

/-- Stores of one full channel tile, lines 172-175: `_mm_packs_epi16`
followed by `_mm_storel_epi64` stores the 8 requantized bytes, lanes 0..7 in
order, at `output .. output+7`, and the output pointer advances by 8. -/
def tileWrites (e : Env) (cur t wb out : Nat) : List Write :=
  (List.range 8).map (fun j => ⟨out + 8 * t + j, voutLane e cur t wb j⟩)

/-- `_mm_srli_epi64 v 32` acting on the 16 packed bytes of a 128-bit value,
expressed on byte lanes: each 64-bit half shifts right by 4 bytes. -/
def srl64by32 (v : Nat → Int) : Nat → Int :=
  fun j => if j % 8 < 4 then v (j + 4) else 0

/-- `_mm_srli_epi32 v 16` on byte lanes: each 32-bit lane shifts right by
2 bytes. -/
def srl32by16 (v : Nat → Int) : Nat → Int :=
  fun j => if j % 4 < 2 then v (j + 2) else 0

/-- Tail stores, lines 269-282: with `r = channels mod 8` remaining channels,
store 4 bytes (`_mm_cvtsi128_si32`) if bit 2 of `r` is set, then shift the
byte vector down by 4; store 2 bytes (`_mm_extract_epi16 _ 0`) if bit 1 is
set, then shift down by 2; store 1 byte (`_mm_extract_epi8 _ 0`) if bit 0 is
set.  `v` is the packed byte vector `vout0123456701234567`. -/
def tailWrites (r out : Nat) (v : Nat → Int) : List Write :=
  (if r &&& 4 ≠ 0 then
    [⟨out, v 0⟩, ⟨out + 1, v 1⟩, ⟨out + 2, v 2⟩, ⟨out + 3, v 3⟩] else []) ++
  (let out1 := if r &&& 4 ≠ 0 then out + 4 else out
   let v1 := if r &&& 4 ≠ 0 then srl64by32 v else v
   (if r &&& 2 ≠ 0 then [⟨out1, v1 0⟩, ⟨out1 + 1, v1 1⟩] else []) ++
   (let out2 := if r &&& 2 ≠ 0 then out1 + 2 else out1
    let v2 := if r &&& 2 ≠ 0 then srl32by16 v1 else v1
    if r &&& 1 ≠ 0 then [⟨out2, v2 0⟩] else []))

/-- Stores of the full-tile loop of one column, lines 82-176: tiles
`t = 0 .. channels/8 - 1`, each reading the weight tile at byte offset
`104*t` (the per-tile weight advance is `8*4 + 72 = 104` bytes, line 140) and
storing 8 bytes at `out + 8*t`. -/
def columnMain (e : Env) (cur out : Nat) : List Write :=
  (List.range (e.channels / 8)).flatMap (fun t => tileWrites e cur t (104 * t) out)

/-- Stores of the tail block of one column, lines 177-283, which runs exactly
when `channels mod 8 ≠ 0`: the full 8-lane computation at tile position
`channels/8` (weight tile offset `104*(channels/8)`, tap pointers already
advanced by `8*(channels/8)`), stored through the partial-store sequence.
The packed byte vector duplicates the 8 result bytes in both 64-bit halves
(`_mm_packs_epi16 v v`), hence the `j % 8`. -/
def columnTail (e : Env) (cur out : Nat) : List Write :=
  if e.channels % 8 = 0 then [] else
    tailWrites (e.channels % 8) (out + 8 * (e.channels / 8))
      (fun j => voutLaneTail e cur (e.channels / 8) (104 * (e.channels / 8)) (j % 8))

/-- All stores of one output column (one iteration of the outer do-while,
lines 32-287): the full tiles then the tail. -/
def columnWrites (e : Env) (cur out : Nat) : List Write :=
  columnMain e cur out ++ columnTail e cur out

/-- The whole kernel as a write trace.  The first argument is `output_width`,
the trip count of the outer do-while loop (lines 32-287); each iteration
processes one column, after which the indirection cursor advances by
`input_stride` (line 78), and the output pointer — already advanced by one
byte per stored channel — additionally advances by `output_increment`
(line 286, inside the loop). -/
def xnn_qs8_dwconv_minmax_ukernel_up8x9__avx2_mul32
    (e : Env) : Nat → Nat → Nat → List Write
  | 0, _, _ => []
  | n + 1, cur, out =>
      columnWrites e cur out ++
      xnn_qs8_dwconv_minmax_ukernel_up8x9__avx2_mul32 e n
        (cur + e.inputStride) (out + e.channels + e.outputIncrement)

/-- Input-row byte addresses read while accumulating channel tile `t` of the
column at cursor `cur`: for each tap `k`, the 8 bytes at the (possibly
offset) tap pointer plus `8*t` (lines 86-136: `_mm_loadl_epi64` at `i_k`
after `t` advances of 8). -/
def tileReadAddrs (e : Env) (cur t : Nat) : List Nat :=
  (List.range 9).flatMap (fun k =>
    (List.range 8).map (fun j => tapPtr e cur k + 8 * t + j))

/-- Byte offsets, relative to the weight tile the tail block starts at, that
the tail block reads from the packed weight buffer (lines 179-231): the
32-byte bias load `_mm256_loadu_si256` at `w`, and for each tap `k` the
8-byte weight load `_mm_loadl_epi64` at `w + 32 + 8*k`. -/
def tailWeightReadOffsets : List Nat :=
  List.range 32 ++
    (List.range 9).flatMap (fun k => (List.range 8).map (fun j => 32 + 8 * k + j))

/-- The remainder formula exactly as the specification states it:
`remainder = (p & remainderMask) + (p < 0 ? 1 : 0)`. -/
def remFormulaSpec (p mask : Int) : Int :=
  and32 p mask + (if p < 0 then (1 : Int) else 0)

/-- The rescale formula exactly as the specification states it:
`scaled = (p >> shift) - (remainder > remainderThreshold ? 1 : 0)`, with the
specification's remainder. -/
def scaledFormulaSpec (p : Int) (s : Nat) (mask threshold : Int) : Int :=
  sra32 p s - (if threshold < remFormulaSpec p mask then (1 : Int) else 0)

/-- The remainder formula with the comparison-mask signs the code actually
uses: `remainder = (p & remainderMask) - (p < 0 ? 1 : 0)`. -/
def remFormula (p mask : Int) : Int :=
  and32 p mask - (if p < 0 then (1 : Int) else 0)

/-- The rescale formula with the signs the code actually uses:
`scaled = (p >> shift) + (remainder > remainderThreshold ? 1 : 0)`. -/
def scaledFormula (p : Int) (s : Nat) (mask threshold : Int) : Int :=
  sra32 p s + (if threshold < remFormula p mask then (1 : Int) else 0)

/-- The accumulator computation of `accLane` with tap `k0`'s contribution
replaced by nothing at all: the fold skips tap `k0` entirely, so in
particular no weight of tap `k0` is read.  Comparing `accLane` against this
function states that a tap contributes exactly zero. -/
def accLaneMasked (e : Env) (cur t wb j k0 : Nat) : Int :=
  (List.range 9).foldl
    (fun acc k =>
      if k = k0 then acc else
        add32 acc (mullo32 (sext8 (e.imem (tapPtr e cur k + 8 * t + j)))
                           (sext8 (e.wwt (wb + 32 + 8 * k + j)))))
    (wrap32 (e.wbias (wb + 4 * j)))

/-!
Embedding of `xnn_x32_depth_to_space_chw2hwc_ukernel__scalar_c1_ib2`
(`src/x32-depth-to-space-chw2hwc/gen/scalar-c1-ib2.c`).  The five loop
levels of the C code (iy, by, ix, bx, c — the bx loop unrolled by 2 with a
single-step remainder loop) become five recursive functions over the
down-counting trip counts, each threading the input and output byte cursors
exactly as the C code increments them.  Elements are 32-bit, so
`element_stride = 4`.
-/

/-- Environment of one depth-to-space call: sizes, strides (all in bytes,
as in the C code), the input memory (`imem a` = 32-bit element at byte
address `a`) and the two base addresses. -/
structure D2SEnv where
  output_channels : Nat
  input_height : Nat
  input_width : Nat
  block_size : Nat
  imem : Nat → Int
  input : Nat
  output : Nat
  input_channel_stride : Nat
  input_height_stride : Nat
  output_height_stride : Nat
  output_width_stride : Nat

/-- Innermost channel loop, lines 76-80 (and its two verbatim copies at
lines 87-91 and 102-106): copy one element, advance the input cursor by
`c_input_increment = block_size * block_size * input_channel_stride` and the
output cursor by `c_output_increment = element_stride = 4`. -/
def cLoop (e : D2SEnv) : Nat → Nat → Nat → List Write
  | 0, _, _ => []
  | n + 1, ic, oc =>
      ⟨oc, e.imem ic⟩ ::
        cLoop e n (ic + e.block_size * e.block_size * e.input_channel_stride) (oc + 4)

/-- The bx loop, lines 70-110: pairs of block columns
(`bx_input_increment = input_channel_stride`,
`bx_output_increment = output_width_stride`), then a single-step remainder
loop. -/
def bxLoop (e : D2SEnv) : Nat → Nat → Nat → List Write
  | bx + 2, ibx, obx =>
      cLoop e e.output_channels (ibx + 0 * e.input_channel_stride)
        (obx + 0 * e.output_width_stride) ++
      cLoop e e.output_channels (ibx + 1 * e.input_channel_stride)
        (obx + 1 * e.output_width_stride) ++
      bxLoop e bx (ibx + 2 * e.input_channel_stride)
        (obx + 2 * e.output_width_stride)
  | 1, ibx, obx => cLoop e e.output_channels ibx obx
  | 0, _, _ => []

/-- The ix loop, lines 62-114: `ix_input_increment = element_stride = 4`,
`ix_output_increment = block_size * output_width_stride`. -/
def ixLoop (e : D2SEnv) : Nat → Nat → Nat → List Write
  | 0, _, _ => []
  | n + 1, iix, oix =>
      bxLoop e e.block_size iix oix ++
        ixLoop e n (iix + 4) (oix + e.block_size * e.output_width_stride)

/-- The by loop, lines 58-117:
`by_input_increment = block_size * input_channel_stride`,
`by_output_increment = output_height_stride`. -/
def byLoop (e : D2SEnv) : Nat → Nat → Nat → List Write
  | 0, _, _ => []
  | n + 1, iby, oby =>
      ixLoop e e.input_width iby oby ++
        byLoop e n (iby + e.block_size * e.input_channel_stride)
          (oby + e.output_height_stride)

/-- The iy loop, lines 54-120: `iy_input_increment = input_height_stride`,
`iy_output_increment = block_size * output_height_stride`. -/
def iyLoop (e : D2SEnv) : Nat → Nat → Nat → List Write
  | 0, _, _ => []
  | n + 1, iiy, oiy =>
      byLoop e e.block_size iiy oiy ++
        iyLoop e n (iiy + e.input_height_stride)
          (oiy + e.block_size * e.output_height_stride)

/-- The whole depth-to-space kernel as a write trace.  The loop counters are
do-while trip counts; the kernel's preconditions (lines 27-30) make all of
them at least 1. -/
def xnn_x32_depth_to_space_chw2hwc_ukernel__scalar_c1_ib2 (e : D2SEnv) : List Write :=
  iyLoop e e.input_height e.input e.output

/-- The write set the depth-to-space kernel is claimed to produce, one write
per tuple `(iy, by, ix, bx, c)`, output element at
`(iy*bs+by)*output_height_stride + (ix*bs+bx)*output_width_stride + 4*c`
copied from input element at
`(c*bs*bs + by*bs + bx)*input_channel_stride + iy*input_height_stride + 4*ix`
(this is also the index formula in the comment at lines 32-38 of the C
file). -/
def d2sSpec (e : D2SEnv) : List Write :=
  (List.range e.input_height).flatMap (fun iy =>
  (List.range e.block_size).flatMap (fun b_y =>
  (List.range e.input_width).flatMap (fun ix =>
  (List.range e.block_size).flatMap (fun bx =>
  (List.range e.output_channels).map (fun c =>
    ⟨e.output + (iy * e.block_size + b_y) * e.output_height_stride
        + (ix * e.block_size + bx) * e.output_width_stride + 4 * c,
     e.imem (e.input
        + (c * e.block_size * e.block_size + b_y * e.block_size + bx)
            * e.input_channel_stride
        + iy * e.input_height_stride + 4 * ix)⟩)))))

/-- Modelled from the spec: the `remainderMask` constant "derived from
`shift`" (section 3 of the specification).  The parameter-initialization
code that computes it is not among the provided sources; the kernel corrects
a plain arithmetic shift by `shift` using the low-bit remainder, so the mask
selects the `shift` low bits: `2^shift - 1`. -/
def derivedRemainderMask (s : Nat) : Int := 2 ^ s - 1

/-- Modelled from the spec: the `remainderThreshold` constant "derived from
`shift`" (section 3 of the specification), the half-way point of the
remainder range: `remainderMask >> 1 = (2^shift - 1) / 2`. -/
def derivedRemainderThreshold (s : Nat) : Int := (2 ^ s - 1) / 2

/-- A degenerate parameter block (identity-free requantization) used to
exercise the kernel's store layout on concrete runs. -/
def paramsZero : Params :=
  { multiplier := 0, shift := 0, remainderMask := 0, remainderThreshold := 0,
    outputZeroPoint := 0, outputMin := -128, outputMax := 127 }

/-- A realistic parameter block: multiplier 2^30 (scale 1/2), shift 3 with
its derived remainder mask 7 and threshold 3, zero point 1, output bounds
-100 and 100. -/
def paramsReal : Params :=
  { multiplier := 2 ^ 30, shift := 3, remainderMask := 7, remainderThreshold := 3,
    outputZeroPoint := 1, outputMin := -100, outputMax := 100 }

/-- Concrete single-channel environment with `output_increment = 5`,
exhibiting the kernel's actual output-pointer advance between columns. -/
def envC3 : Env :=
  { channels := 1, itab := fun _ _ => 1000, imem := fun _ => 0,
    wbias := fun _ => 0, wwt := fun _ => 0, inputStride := 0,
    outputIncrement := 5, inputOffset := 0, zero := 1000, params := paramsZero }

/-- Concrete environment with `channels = 3` (a pure tail column) and
non-trivial memory contents. -/
def envC5 : Env :=
  { channels := 3, itab := fun cur k => 100 + 10 * k + cur,
    imem := fun a => ((a % 7 : Nat) : Int) - 3,
    wbias := fun a => (a : Int), wwt := fun a => ((a % 5 : Nat) : Int) - 2,
    inputStride := 1, outputIncrement := 0, inputOffset := 2, zero := 100,
    params := paramsReal }

/-- Concrete environment whose tap 4 points at the zero buffer (address 50,
zero-filled below address 58) while the other taps read non-zero data. -/
def envC7 : Env :=
  { channels := 8, itab := fun _ k => if k = 4 then 50 else 200 + k,
    imem := fun a => if a < 58 then 0 else ((a % 11 : Nat) : Int) - 5,
    wbias := fun a => (a : Int), wwt := fun a => ((a % 5 : Nat) : Int) - 2,
    inputStride := 8, outputIncrement := 0, inputOffset := 3, zero := 50,
    params := paramsReal }

/-- Parameter block whose zero point pushes the rescaled value (20) above
`outputMax = 10` and whose bounds sit strictly inside the 8-bit range. -/
def paramsC6 : Params :=
  { multiplier := 0, shift := 0, remainderMask := 0, remainderThreshold := 0,
    outputZeroPoint := 20, outputMin := -10, outputMax := 10 }

/-- Concrete depth-to-space environment: 2 output channels, 1x1 input,
block size 3 (exercising both the unrolled pair loop and the remainder
column), distinct strides, input memory holding its own address. -/
def envD2S : D2SEnv :=
  { output_channels := 2, input_height := 1, input_width := 1, block_size := 3,
    imem := fun a => (a : Int), input := 1000, output := 0,
    input_channel_stride := 4, input_height_stride := 100,
    output_height_stride := 40, output_width_stride := 12 }

/-! ### Arithmetic helper lemmas -/

theorem wrap32_eq_self {x : Int} (h1 : -(2 ^ 31) ≤ x) (h2 : x < 2 ^ 31) :
    wrap32 x = x := by
  unfold wrap32; omega

theorem wrap32_lb (x : Int) : -(2 ^ 31) ≤ wrap32 x := by
  unfold wrap32; omega

theorem wrap32_ub (x : Int) : wrap32 x < 2 ^ 31 := by
  unfold wrap32; omega

theorem wrap32_wrap32 (x : Int) : wrap32 (wrap32 x) = wrap32 x := by
  unfold wrap32; omega

theorem add32_zero_right (x : Int) : add32 x 0 = wrap32 x := by
  unfold add32; rw [add_zero]

theorem wrap32_add32 (a b : Int) : wrap32 (add32 a b) = add32 a b := by
  unfold add32; exact wrap32_wrap32 _

theorem mullo32_zero_left (b : Int) : mullo32 0 b = 0 := by
  unfold mullo32 wrap32; rw [zero_mul]; decide

theorem sext8_zero : sext8 0 = 0 := by decide

theorem two_pow_le_two_pow_31 {s : Nat} (hs : s ≤ 31) : (2 : Int) ^ s ≤ 2 ^ 31 :=
  pow_le_pow_right₀ (by norm_num) hs

theorem two_pow_pos_int (s : Nat) : (0 : Int) < 2 ^ s := by positivity

/-- Bitwise AND of a signed 32-bit value with the low-bit mask `2^s - 1`
extracts the value's nonnegative remainder modulo `2^s`. -/
theorem and32_two_pow_sub_one {p : Int} {s : Nat} (hs : s ≤ 31)
    (h1 : -(2 ^ 31) ≤ p) (h2 : p < 2 ^ 31) :
    and32 p (2 ^ s - 1) = p % 2 ^ s := by
  have hposI : (0 : Int) < 2 ^ s := two_pow_pos_int s
  have hleI : (2 : Int) ^ s ≤ 2 ^ 31 := two_pow_le_two_pow_31 hs
  have hmask_mod : ((2 : Int) ^ s - 1) % 2 ^ 32 = 2 ^ s - 1 :=
    Int.emod_eq_of_lt (by omega) (by omega)
  have hcastpow : (((2 : Nat) ^ s - 1 : Nat) : Int) = (2 : Int) ^ s - 1 := by
    have h1s : (1 : Nat) ≤ 2 ^ s := Nat.one_le_two_pow
    push_cast [Nat.cast_sub h1s]
    ring
  have hmaskN : toN32 ((2 : Int) ^ s - 1) = 2 ^ s - 1 := by
    unfold toN32
    rw [hmask_mod, ← hcastpow, Int.toNat_natCast]
  have hu_nonneg : (0 : Int) ≤ p % 2 ^ 32 := Int.emod_nonneg p (by positivity)
  have hu_cast : ((toN32 p : Nat) : Int) = p % 2 ^ 32 := by
    unfold toN32; exact Int.toNat_of_nonneg hu_nonneg
  unfold and32
  rw [hmaskN, Nat.and_pow_two_sub_one_eq_mod]
  have hmodlt : toN32 p % 2 ^ s < 2 ^ s :=
    Nat.mod_lt _ (Nat.pos_pow_of_pos s (by norm_num))
  have hpowN : (2 : Nat) ^ s ≤ 2 ^ 31 := Nat.pow_le_pow_right (by norm_num) hs
  unfold sign32
  rw [Nat.mod_eq_of_lt (by omega : toN32 p % 2 ^ s < 2 ^ 32)]
  rw [if_pos (by omega : toN32 p % 2 ^ s < 2 ^ 31)]
  have : ((toN32 p % 2 ^ s : Nat) : Int) = (p % 2 ^ 32) % 2 ^ s := by
    push_cast
    rw [hu_cast]
    norm_num
  rw [this, Int.emod_emod_of_dvd p (pow_dvd_pow 2 (by omega : s ≤ 32))]

/-- Remainder step with the derived mask: for an in-range Q31 product,
`remStep` computes `(p mod 2^s) - (p < 0 ? 1 : 0)` with no wrapping. -/
theorem remStep_eq {p : Int} {s : Nat} (hs : s ≤ 31)
    (h1 : -(2 ^ 31) ≤ p) (h2 : p < 2 ^ 31) :
    remStep p (2 ^ s - 1) = p % 2 ^ s - (if p < 0 then (1 : Int) else 0) := by
  have hρ0 : (0 : Int) ≤ p % 2 ^ s := Int.emod_nonneg p (by positivity)
  have hρ1 : p % 2 ^ s < 2 ^ s := Int.emod_lt_of_pos p (two_pow_pos_int s)
  have hleI : (2 : Int) ^ s ≤ 2 ^ 31 := two_pow_le_two_pow_31 hs
  unfold remStep
  rw [and32_two_pow_sub_one hs h1 h2]
  rcases lt_or_le p 0 with hneg | hpos
  · rw [if_pos hneg, if_pos hneg, wrap32_eq_self (by omega) (by omega)]
    ring
  · rw [if_neg (by omega), if_neg (by omega), add_zero, sub_zero,
      wrap32_eq_self (by omega) (by omega)]

/-- Rescale step with the derived mask and threshold: for an in-range Q31
product, `scaleStep` computes the arithmetic shift plus the rounding
correction, with no wrapping: the all-ones comparison lane subtracted by
`_mm256_sub_epi32` adds exactly 1. -/
theorem scaleStep_eq {p : Int} {s : Nat} (hs : s ≤ 31)
    (h1 : -(2 ^ 31) ≤ p) (h2 : p < 2 ^ 31) :
    scaleStep p s (2 ^ s - 1) ((2 ^ s - 1) / 2) =
      p / 2 ^ s +
        (if ((2 ^ s - 1 : Int)) / 2 < p % 2 ^ s - (if p < 0 then (1 : Int) else 0)
         then 1 else 0) := by
  have hpos : (0 : Int) < 2 ^ s := two_pow_pos_int s
  have hq_low : -(2 ^ 31) ≤ p / 2 ^ s := by
    have h1s : (1 : Int) ≤ 2 ^ s := by omega
    have ha : (-(2 ^ 31) : Int) / 2 ^ s ≤ p / 2 ^ s := Int.ediv_le_ediv hpos h1
    have hb : (-(2 ^ 31) : Int) ≤ (-(2 ^ 31) : Int) / 2 ^ s := by
      rw [Int.le_ediv_iff_mul_le hpos]
      have := mul_le_mul_of_nonneg_left h1s (by positivity : (0 : Int) ≤ 2 ^ 31)
      omega
    omega
  unfold scaleStep sra32
  rw [remStep_eq hs h1 h2]
  rcases Nat.eq_zero_or_pos s with hs0 | hs1
  · subst hs0
    simp only [pow_zero, Int.ediv_one, Int.emod_one]
    have hcond : ¬ (((1 : Int) - 1) / 2 < 0 - if p < 0 then (1 : Int) else 0) := by
      split_ifs <;> norm_num
    rw [if_neg hcond, if_neg hcond, sub_zero, add_zero]
    exact wrap32_eq_self h1 h2
  · have h2s : (2 : Int) ≤ 2 ^ s := by
      calc (2 : Int) = 2 ^ 1 := (pow_one 2).symm
      _ ≤ 2 ^ s := pow_le_pow_right₀ (by norm_num) hs1
    have hq_hi : p / 2 ^ s ≤ 2 ^ 30 := by
      by_contra hcon
      push_neg at hcon
      have hmul := (Int.le_ediv_iff_mul_le hpos).mp
        (by omega : (2 ^ 30 + 1 : Int) ≤ p / 2 ^ s)
      have := mul_le_mul_of_nonneg_left h2s (by positivity : (0 : Int) ≤ 2 ^ 30 + 1)
      omega
    split_ifs
    all_goals first
      | (rw [sub_neg_eq_add]; exact wrap32_eq_self (by omega) (by omega))
      | (rw [sub_zero, add_zero]; exact wrap32_eq_self (by omega) (by omega))

/-- Rounding-error bound for the rescale step: with the derived mask and
threshold, the rescaled value differs from the exact quotient `p / 2^s` by
at most half a unit: `|scaleStep p - p / 2^s| ≤ 1/2`, stated multiplied
through by `2^(s+1)`. -/
theorem scaleStep_err {p : Int} {s : Nat} (hs : s ≤ 31)
    (h1 : -(2 ^ 31) ≤ p) (h2 : p < 2 ^ 31) :
    2 * |scaleStep p s (2 ^ s - 1) ((2 ^ s - 1) / 2) * 2 ^ s - p| ≤ 2 ^ s := by
  rcases Nat.eq_zero_or_pos s with hs0 | hs1
  · subst hs0
    rw [scaleStep_eq hs h1 h2]
    simp only [pow_zero, Int.ediv_one, Int.emod_one]
    have hcond : ¬ (((1 : Int) - 1) / 2 < 0 - if p < 0 then (1 : Int) else 0) := by
      split_ifs <;> norm_num
    rw [if_neg hcond, add_zero]
    simp
  rw [scaleStep_eq hs h1 h2]
  have hb2 : ((2 : Int) ^ s) % 2 = 0 :=
    Int.emod_eq_zero_of_dvd (dvd_pow_self 2 hs1.ne')
  have hpos : (0 : Int) < 2 ^ s := two_pow_pos_int s
  have hρ0 : (0 : Int) ≤ p % 2 ^ s := Int.emod_nonneg p (by positivity)
  have hρ1 : p % 2 ^ s < 2 ^ s := Int.emod_lt_of_pos p hpos
  have hT := Int.ediv_add_emod ((2 : Int) ^ s - 1) 2
  have hTr0 : (0 : Int) ≤ ((2 : Int) ^ s - 1) % 2 := Int.emod_nonneg _ (by norm_num)
  have hTr1 : ((2 : Int) ^ s - 1) % 2 < 2 := Int.emod_lt_of_pos _ (by norm_num)
  have hq := Int.ediv_add_emod p ((2 : Int) ^ s)
  split_ifs with hc1 hc2 hc3
  · -- p < 0, correction fired
    have hkey : (p / 2 ^ s + 1) * 2 ^ s - p = 2 ^ s - p % 2 ^ s := by
      linear_combination hq
    rw [hkey, abs_of_nonneg (by omega)]
    clear hq
    omega
  · -- p < 0, no correction
    have hkey : (p / 2 ^ s + 0) * 2 ^ s - p = -(p % 2 ^ s) := by
      linear_combination hq
    rw [hkey, abs_neg, abs_of_nonneg hρ0]
    clear hq
    omega
  · -- 0 ≤ p, correction fired
    have hkey : (p / 2 ^ s + 1) * 2 ^ s - p = 2 ^ s - p % 2 ^ s := by
      linear_combination hq
    rw [hkey, abs_of_nonneg (by omega)]
    clear hq
    omega
  · -- 0 ≤ p, no correction
    have hkey : (p / 2 ^ s + 0) * 2 ^ s - p = -(p % 2 ^ s) := by
      linear_combination hq
    rw [hkey, abs_neg, abs_of_nonneg hρ0]
    clear hq
    omega

/-- The Q31 product, except on the single wrapping input pair
`acc = multiplier = -2^31`, is the flooring shift of the rounded 64-bit
product, and is a nearest integer to `acc * multiplier / 2^31`. -/
theorem q31_spec {a m : Int} (ha1 : -(2 ^ 31) ≤ a) (ha2 : a < 2 ^ 31)
    (hm1 : -(2 ^ 31) ≤ m) (hm2 : m < 2 ^ 31)
    (hnot : ¬(a = -(2 ^ 31) ∧ m = -(2 ^ 31))) :
    q31 a m = (a * m + 2 ^ 30) / 2 ^ 31 ∧
      |(a * m + 2 ^ 30) / 2 ^ 31 * 2 ^ 31 - a * m| ≤ 2 ^ 30 := by
  have habs : |a * m| ≤ 2 ^ 62 := by
    rw [abs_mul]
    calc |a| * |m| ≤ 2 ^ 31 * 2 ^ 31 :=
          mul_le_mul (abs_le.mpr ⟨by omega, by omega⟩)
            (abs_le.mpr ⟨by omega, by omega⟩) (abs_nonneg m) (by positivity)
    _ = 2 ^ 62 := by norm_num
  have hprod_lo : -(2 ^ 62) ≤ a * m := by
    have := abs_le.mp habs
    omega
  have hprod_hi : a * m ≤ 2 ^ 62 - 2 ^ 31 := by
    rcases eq_or_lt_of_le ha1 with hae | ha1'
    · have hmne : -(2 ^ 31) < m := by
        rcases eq_or_lt_of_le hm1 with hme | hm' <;> [exact absurd ⟨hae.symm, hme.symm⟩ hnot; exact hm']
      have := mul_le_mul_of_nonpos_left (by omega : -(2 ^ 31) + 1 ≤ m)
        (by norm_num : (-(2 ^ 31) : Int) ≤ 0)
      rw [← hae]
      nlinarith
    · have : |a * m| ≤ 2 ^ 62 - 2 ^ 31 := by
        rw [abs_mul]
        calc |a| * |m| ≤ (2 ^ 31 - 1) * 2 ^ 31 :=
              mul_le_mul (abs_le.mpr ⟨by omega, by omega⟩)
                (abs_le.mpr ⟨by omega, by omega⟩) (abs_nonneg m) (by positivity)
        _ = 2 ^ 62 - 2 ^ 31 := by norm_num
      have := abs_le.mp this
      omega
  have hp0_hi : (a * m + 2 ^ 30) / 2 ^ 31 ≤ 2 ^ 31 - 1 := by
    have hmono : (a * m + 2 ^ 30) / 2 ^ 31 ≤ ((2 : Int) ^ 62 - 2 ^ 31 + 2 ^ 30) / 2 ^ 31 :=
      Int.ediv_le_ediv (by positivity) (by omega)
    have hval : ((2 : Int) ^ 62 - 2 ^ 31 + 2 ^ 30) / 2 ^ 31 = 2 ^ 31 - 1 := by decide
    omega
  have hp0_lo : -(2 ^ 31) ≤ (a * m + 2 ^ 30) / 2 ^ 31 := by
    have hmono : (-(2 : Int) ^ 62 + 2 ^ 30) / 2 ^ 31 ≤ (a * m + 2 ^ 30) / 2 ^ 31 :=
      Int.ediv_le_ediv (by positivity) (by omega)
    have hval : (-(2 : Int) ^ 62 + 2 ^ 30) / 2 ^ 31 = -(2 ^ 31) := by decide
    omega
  constructor
  · unfold q31
    exact wrap32_eq_self (by omega) (by omega)
  · have hdm := Int.ediv_add_emod (a * m + 2 ^ 30) ((2 : Int) ^ 31)
    have hr0 : (0 : Int) ≤ (a * m + 2 ^ 30) % 2 ^ 31 :=
      Int.emod_nonneg _ (by positivity)
    have hr1 : (a * m + 2 ^ 30) % 2 ^ 31 < 2 ^ 31 :=
      Int.emod_lt_of_pos _ (by positivity)
    have hkey : (a * m + 2 ^ 30) / 2 ^ 31 * 2 ^ 31 - a * m =
        2 ^ 30 - (a * m + 2 ^ 30) % 2 ^ 31 := by
      linear_combination hdm
    rw [hkey, abs_le]
    constructor <;> omega

/-! ### Trace helper lemmas -/

/-- A down-counting loop that runs a body and advances two cursors by fixed
strides unfolds to a `flatMap` over the iteration index. -/
theorem loop_trace (body : Nat → Nat → List Write) (di dο : Nat)
    (loop : Nat → Nat → Nat → List Write)
    (h0 : ∀ i o, loop 0 i o = [])
    (hS : ∀ n i o, loop (n + 1) i o = body i o ++ loop n (i + di) (o + dο)) :
    ∀ n i o, loop n i o =
      (List.range n).flatMap (fun t => body (i + di * t) (o + dο * t)) := by
  intro n
  induction n with
  | zero => intro i o; simp [h0]
  | succ n ih =>
      intro i o
      rw [hS, ih, List.range_succ_eq_map]
      simp only [List.flatMap_cons, List.flatMap_map, Nat.mul_zero, Nat.add_zero,
        Nat.succ_eq_add_one]
      congr 1
      refine congrArg ((List.range n).flatMap) (funext fun t => ?_)
      have ha : i + di + di * t = i + di * (t + 1) := by ring
      have hb : o + dο + dο * t = o + dο * (t + 1) := by ring
      rw [ha, hb]

/-- The partial-store sequence writes exactly the first `r` bytes of the
packed result vector, at `r` consecutive addresses, in order. -/
theorem tailWrites_eq (r out : Nat) (v : Nat → Int) (h1 : 0 < r) (h2 : r < 8) :
    tailWrites r out v = (List.range r).map (fun i => ⟨out + i, v i⟩) := by
  interval_cases r <;> rfl

/-- Concatenating `a` blocks of `b` consecutive offsets yields `a * b`
consecutive offsets. -/
theorem range_flatMap_blocks (a b c : Nat) :
    (List.range a).flatMap (fun t => (List.range b).map (fun j => c + b * t + j)) =
      (List.range (a * b)).map (fun i => c + i) := by
  induction a with
  | zero => simp
  | succ a ih =>
      rw [List.range_succ, List.flatMap_append, ih, Nat.succ_mul, List.range_add,
        List.map_append, List.map_map]
      simp only [List.flatMap_cons, List.flatMap_nil, List.append_nil]
      congr 1
      refine congrArg (fun f => List.map f (List.range b)) (funext fun j => ?_)
      simp only [Function.comp_apply]
      ring

/-- The full-tile loop of a column stores at `channels/8 * 8` consecutive
addresses starting at `out`, in order. -/
theorem columnMain_addrs (e : Env) (cur out : Nat) :
    (columnMain e cur out).map Write.addr =
      (List.range (e.channels / 8 * 8)).map (fun i => out + i) := by
  unfold columnMain tileWrites
  rw [List.map_flatMap]
  have hpt : (fun t => List.map Write.addr
      (List.map (fun j => (⟨out + 8 * t + j, voutLane e cur t (104 * t) j⟩ : Write))
        (List.range 8))) =
      fun t => (List.range 8).map (fun j => out + 8 * t + j) := by
    funext t
    rw [List.map_map]
    rfl
  rw [hpt]
  exact range_flatMap_blocks _ 8 out

/-- A whole column (full tiles plus tail) stores at exactly `channels`
consecutive addresses starting at `out`, in order. -/
theorem columnWrites_addrs (e : Env) (cur out : Nat) :
    (columnWrites e cur out).map Write.addr =
      (List.range e.channels).map (fun i => out + i) := by
  unfold columnWrites
  rw [List.map_append, columnMain_addrs]
  unfold columnTail
  rcases Nat.eq_zero_or_pos (e.channels % 8) with h0 | hpos
  · rw [if_pos h0, List.map_nil, List.append_nil,
      show e.channels / 8 * 8 = e.channels from by omega]
  · rw [if_neg (by omega), tailWrites_eq _ _ _ hpos (Nat.mod_lt _ (by norm_num)),
      List.map_map,
      congrArg List.range (show e.channels = e.channels / 8 * 8 + e.channels % 8 from by omega),
      List.range_add, List.map_append, List.map_map]
    congr 1
    refine congrArg (fun f => List.map f (List.range (e.channels % 8))) (funext fun i => ?_)
    simp only [Function.comp_apply]
    omega

/-- The dwconv kernel's write trace unfolds column by column: column `t`
reads the indirection entry at `cur + input_stride * t` and starts writing at
`out + (channels + output_increment) * t`. -/
theorem kernel_trace (e : Env) (n cur out : Nat) :
    xnn_qs8_dwconv_minmax_ukernel_up8x9__avx2_mul32 e n cur out =
      (List.range n).flatMap (fun t =>
        columnWrites e (cur + e.inputStride * t)
          (out + (e.channels + e.outputIncrement) * t)) :=
  loop_trace (fun i o => columnWrites e i o) e.inputStride
    (e.channels + e.outputIncrement)
    (xnn_qs8_dwconv_minmax_ukernel_up8x9__avx2_mul32 e)
    (fun _ _ => rfl)
    (fun n i o => by
      show columnWrites e i o ++ _ = _
      rw [Nat.add_assoc])
    n cur out

theorem cLoop_trace (e : D2SEnv) (n ic oc : Nat) :
    cLoop e n ic oc = (List.range n).map (fun c =>
      ⟨oc + 4 * c,
       e.imem (ic + e.block_size * e.block_size * e.input_channel_stride * c)⟩) := by
  rw [loop_trace (fun i o => [⟨o, e.imem i⟩])
    (e.block_size * e.block_size * e.input_channel_stride) 4 (cLoop e)
    (fun _ _ => rfl) (fun _ _ _ => rfl) n ic oc]
  exact (List.map_eq_flatMap _ _).symm

theorem ixLoop_trace (e : D2SEnv) (n i o : Nat) :
    ixLoop e n i o = (List.range n).flatMap (fun ix =>
      bxLoop e e.block_size (i + 4 * ix)
        (o + e.block_size * e.output_width_stride * ix)) :=
  loop_trace (fun i o => bxLoop e e.block_size i o) 4
    (e.block_size * e.output_width_stride) (ixLoop e)
    (fun _ _ => rfl) (fun _ _ _ => rfl) n i o

theorem byLoop_trace (e : D2SEnv) (n i o : Nat) :
    byLoop e n i o = (List.range n).flatMap (fun b_y =>
      ixLoop e e.input_width (i + e.block_size * e.input_channel_stride * b_y)
        (o + e.output_height_stride * b_y)) :=
  loop_trace (fun i o => ixLoop e e.input_width i o)
    (e.block_size * e.input_channel_stride) e.output_height_stride (byLoop e)
    (fun _ _ => rfl) (fun _ _ _ => rfl) n i o

theorem iyLoop_trace (e : D2SEnv) (n i o : Nat) :
    iyLoop e n i o = (List.range n).flatMap (fun iy =>
      byLoop e e.block_size (i + e.input_height_stride * iy)
        (o + e.block_size * e.output_height_stride * iy)) :=
  loop_trace (fun i o => byLoop e e.block_size i o)
    e.input_height_stride (e.block_size * e.output_height_stride) (iyLoop e)
    (fun _ _ => rfl) (fun _ _ _ => rfl) n i o

/-- The pair-unrolled bx loop (pairs of block columns, then a single-step
remainder loop) visits the block columns `0, 1, ..., bx-1` in order, exactly
as a single-step loop would. -/
theorem bxLoop_trace (e : D2SEnv) : ∀ bx ibx obx,
    bxLoop e bx ibx obx = (List.range bx).flatMap (fun b =>
      cLoop e e.output_channels (ibx + e.input_channel_stride * b)
        (obx + e.output_width_stride * b)) := by
  intro bx
  induction bx using Nat.strong_induction_on with
  | _ bx ih =>
    match bx with
    | 0 => intro ibx obx; rfl
    | 1 =>
        intro ibx obx
        show cLoop e e.output_channels ibx obx = _
        rw [show List.range 1 = [0] from rfl]
        simp only [List.flatMap_cons, List.flatMap_nil, List.append_nil,
          Nat.mul_zero, Nat.add_zero]
    | bx + 2 =>
        intro ibx obx
        have hun : bxLoop e (bx + 2) ibx obx =
            cLoop e e.output_channels (ibx + 0 * e.input_channel_stride)
              (obx + 0 * e.output_width_stride) ++
            cLoop e e.output_channels (ibx + 1 * e.input_channel_stride)
              (obx + 1 * e.output_width_stride) ++
            bxLoop e bx (ibx + 2 * e.input_channel_stride)
              (obx + 2 * e.output_width_stride) := rfl
        rw [hun, ih bx (by omega), show bx + 2 = 2 + bx from by omega,
          List.range_add, List.flatMap_append,
          show List.range 2 = [0, 1] from rfl]
        simp only [List.flatMap_cons, List.flatMap_nil, List.append_nil,
          List.flatMap_map, Nat.mul_zero, Nat.zero_mul, Nat.mul_one, Nat.one_mul,
          Nat.add_zero]
        congr 1
        refine congrArg ((List.range bx).flatMap) (funext fun b => ?_)
        have ha : ibx + 2 * e.input_channel_stride + e.input_channel_stride * b =
            ibx + e.input_channel_stride * (2 + b) := by ring
        have hb : obx + 2 * e.output_width_stride + e.output_width_stride * b =
            obx + e.output_width_stride * (2 + b) := by ring
        rw [ha, hb]

/-- Folding wrapping additions over a list of taps, one of which contributes
the value 0, equals the fold that skips that tap entirely. -/
theorem foldl_skip_zero (g : Nat → Int) (k : Nat) (hg : g k = 0) :
    ∀ (L : List Nat) (init : Int), wrap32 init = init →
      L.foldl (fun acc k' => add32 acc (g k')) init =
        L.foldl (fun acc k' => if k' = k then acc else add32 acc (g k')) init := by
  intro L
  induction L with
  | nil => intro init _; rfl
  | cons a L ih =>
      intro init hinit
      simp only [List.foldl_cons]
      by_cases hak : a = k
      · subst hak
        rw [if_pos rfl, hg, add32_zero_right, hinit]
        exact ih init hinit
      · rw [if_neg hak]
        exact ih _ (wrap32_add32 _ _)

/-! ### Claim theorems -/

/-- C1, counterexample to the claim as stated.  For Q31 product `p = 1` with
`shift = 1` (derived mask `2^1-1 = 1`, threshold `(2^1-1)/2 = 0`), the kernel
computes `scaled = 1` (the `_mm256_sub_epi32` of an all-ones comparison lane
adds 1), while the specification's formula
`scaled = (p >> shift) - (remainder > threshold ? 1 : 0)` yields `-1`; and
for `p = -3` with `shift = 2` the kernel's remainder is `(p & 3) - 1 = 0`
while the specification's `(p & 3) + 1 = 2`. -/
theorem c1_spec_formula_mismatch :
    scaleStep 1 1 (2 ^ 1 - 1) ((2 ^ 1 - 1) / 2) = 1 ∧
    scaledFormulaSpec 1 1 (2 ^ 1 - 1) ((2 ^ 1 - 1) / 2) = -1 ∧
    remStep (-3) (2 ^ 2 - 1) = 0 ∧
    remFormulaSpec (-3) (2 ^ 2 - 1) = 2 := by decide

/-- C1, as amended: with the two comparison signs flipped to what the
all-ones SIMD masks actually contribute, the kernel's remainder and rescale
steps compute `remainder = (p & remainderMask) - (p < 0 ? 1 : 0)` and
`scaled = (p >> shift) + (remainder > remainderThreshold ? 1 : 0)`, where
`>>` is the signed arithmetic shift, for every in-range Q31 product `p` and
every shift `s ≤ 31` with its derived mask and threshold. -/
theorem c1_remainder_correction (p : Int) (s : Nat)
    (h1 : -(2 ^ 31) ≤ p) (h2 : p < 2 ^ 31) (hs : s ≤ 31) :
    remStep p (derivedRemainderMask s) = remFormula p (derivedRemainderMask s) ∧
    scaleStep p s (derivedRemainderMask s) (derivedRemainderThreshold s) =
      scaledFormula p s (derivedRemainderMask s) (derivedRemainderThreshold s) := by
  unfold derivedRemainderMask derivedRemainderThreshold
  have hand := and32_two_pow_sub_one hs h1 h2
  constructor
  · rw [remStep_eq hs h1 h2]
    unfold remFormula
    rw [hand]
  · rw [scaleStep_eq hs h1 h2]
    unfold scaledFormula remFormula sra32
    rw [hand]

theorem c1_remainder_correction_witness :
    remStep (-5) (derivedRemainderMask 2) = remFormula (-5) (derivedRemainderMask 2) ∧
    scaleStep (-5) 2 (derivedRemainderMask 2) (derivedRemainderThreshold 2) =
      scaledFormula (-5) 2 (derivedRemainderMask 2) (derivedRemainderThreshold 2) :=
  c1_remainder_correction (-5) 2 (by decide) (by decide) (by decide)

/-- C2, counterexample to the claim as stated.  At
`acc = multiplier = -2^31` the exact rounded product
`round(acc * multiplier / 2^31) = 2^31` does not fit in 32 bits: the kernel's
Q31 product wraps to `-2^31` instead of equalling the rounded value. -/
theorem c2_wraparound_at_int_min :
    q31 (-(2 ^ 31)) (-(2 ^ 31)) = -(2 ^ 31) ∧
    ((-(2 ^ 31) : Int) * (-(2 ^ 31)) + 2 ^ 30) / 2 ^ 31 = 2 ^ 31 := by decide

/-- C2, as amended: for every 32-bit `acc` and `multiplier` except the single
pair `acc = multiplier = -2^31`, the Q31 product equals the floor of
`(acc * multiplier + 2^30) / 2^31` — bits [31:62] of the rounded 64-bit
product — and this value is a nearest integer to `acc * multiplier / 2^31`
(within half a unit, i.e. `2^30` after multiplying through by `2^31`). -/
theorem c2_q31_rounding (a m : Int) (ha1 : -(2 ^ 31) ≤ a) (ha2 : a < 2 ^ 31)
    (hm1 : -(2 ^ 31) ≤ m) (hm2 : m < 2 ^ 31)
    (hnot : ¬(a = -(2 ^ 31) ∧ m = -(2 ^ 31))) :
    q31 a m = (a * m + 2 ^ 30) / 2 ^ 31 ∧
      |q31 a m * 2 ^ 31 - a * m| ≤ 2 ^ 30 := by
  obtain ⟨he, hb⟩ := q31_spec ha1 ha2 hm1 hm2 hnot
  refine ⟨he, ?_⟩
  rw [he]
  exact hb

theorem c2_q31_rounding_witness :
    q31 3 5 = (3 * 5 + 2 ^ 30) / 2 ^ 31 ∧ |q31 3 5 * 2 ^ 31 - 3 * 5| ≤ 2 ^ 30 :=
  c2_q31_rounding 3 5 (by decide) (by decide) (by decide) (by decide) (by decide)

/-- C3, counterexample to the claim as stated.  With `channels = 1` and
`output_increment = 5`, a two-column run stores at addresses 0 and 6: the
second column does not start `channels = 1` bytes after the first, because
the kernel adds `output_increment` after every column (line 286 sits inside
the per-column do-while loop), not once per row of columns. -/
theorem c3_increment_each_column :
    (xnn_qs8_dwconv_minmax_ukernel_up8x9__avx2_mul32 envC3 2 0 0).map Write.addr
      = [0, 6] ∧
    (xnn_qs8_dwconv_minmax_ukernel_up8x9__avx2_mul32 envC3 2 0 0).map Write.addr
      ≠ [0, 0 + envC3.channels] := by
  constructor <;> decide

/-- C3, as amended: the kernel advances the output pointer by
`output_increment` after every column, so column `t` of a run starts writing
at `out + (channels + output_increment) * t`; within one column the stores
cover exactly `channels` consecutive byte addresses, in order. -/
theorem c3_output_layout :
    (∀ (e : Env) (n cur out : Nat),
      xnn_qs8_dwconv_minmax_ukernel_up8x9__avx2_mul32 e n cur out =
        (List.range n).flatMap (fun t =>
          columnWrites e (cur + e.inputStride * t)
            (out + (e.channels + e.outputIncrement) * t))) ∧
    (∀ (e : Env) (cur out : Nat),
      (columnWrites e cur out).map Write.addr =
        (List.range e.channels).map (fun i => out + i)) :=
  ⟨kernel_trace, columnWrites_addrs⟩

/-- C4, counterexample to the claim as stated.  When `channels mod 8 = 1`,
a partial tile packed without trailing padding holds one 32-bit bias and one
8-bit weight per tap, `4*1 + 9*1 = 13` bytes — yet the tail block's bias
load alone reads byte offset 31 of the tile. -/
theorem c4_tail_overreads_partial_tile :
    31 ∈ tailWeightReadOffsets ∧ ¬(31 < 13 * 1) := by decide

/-- C4, as amended: the tail block performs the same full-width loads as a
full tile (8 biases, 8 weights per tap, 8 input bytes per tap), so every
byte it reads from the packed weight buffer lies within the full 104-byte
tile; the final partial tile must therefore be padded to the full tile
width, and the kernel never reads past that padded tile. -/
theorem c4_tail_reads_within_full_tile :
    ∀ off ∈ tailWeightReadOffsets, off < 104 := by decide

theorem c4_tail_reads_witness : 0 ∈ tailWeightReadOffsets ∧ 0 < 104 :=
  ⟨by decide, c4_tail_reads_within_full_tile 0 (by decide)⟩

/-- C5: for `channels = 8*n + r` with `0 < r < 8`, the tail block stores
exactly `r` bytes at consecutive addresses (largest sub-width first: the
4-byte, 2-byte and 1-byte stores appear in that order in the trace), and the
value of byte `i` equals lane `i` of the full-tile computation `voutLane` at
tile position `n` — over the same biases, weights, inputs and quantization
parameters. -/
theorem c5_tail_matches_full_tile (e : Env) (cur out n r : Nat)
    (hch : e.channels = 8 * n + r) (h1 : 0 < r) (h2 : r < 8) :
    columnTail e cur out =
      (List.range r).map (fun i =>
        ⟨out + 8 * n + i, voutLane e cur n (104 * n) i⟩) := by
  have hq : e.channels / 8 = n := by omega
  have hr : e.channels % 8 = r := by omega
  unfold columnTail
  rw [hr, hq, if_neg (by omega), tailWrites_eq r _ _ h1 h2]
  apply List.map_congr_left
  intro i hi
  have hi8 : i < 8 := by
    have := List.mem_range.mp hi
    omega
  rw [Nat.mod_eq_of_lt hi8]
  rfl

theorem c5_tail_matches_full_tile_witness :
    columnTail envC5 0 0 =
      (List.range 3).map (fun i =>
        ⟨0 + 8 * 0 + i, voutLane envC5 0 0 (104 * 0) i⟩) :=
  c5_tail_matches_full_tile envC5 0 0 0 3 (by decide) (by decide) (by decide)

/-- C6: whenever the rescaled, zero-point-adjusted 16-bit value exceeds
`outputMax`, the requantized output is exactly `outputMax`; whenever it is
below `outputMin`, the output is exactly `outputMin`; and every requantized
output lies in the signed 8-bit range — never a wrapped value — given the
parameter invariant `-128 ≤ outputMin ≤ outputMax ≤ 127`. -/
theorem c6_saturating_clamp (P : Params) (acc : Int)
    (hlo : -(2 ^ 7) ≤ P.outputMin) (hmm : P.outputMin ≤ P.outputMax)
    (hhi : P.outputMax ≤ 2 ^ 7 - 1) :
    (P.outputMax <
        adds16 (packs32 (scaleStep (q31 acc P.multiplier) P.shift
          P.remainderMask P.remainderThreshold)) P.outputZeroPoint →
      requant P acc = P.outputMax) ∧
    (adds16 (packs32 (scaleStep (q31 acc P.multiplier) P.shift
        P.remainderMask P.remainderThreshold)) P.outputZeroPoint <
        P.outputMin →
      requant P acc = P.outputMin) ∧
    (-(2 ^ 7) ≤ requant P acc ∧ requant P acc ≤ 2 ^ 7 - 1) := by
  unfold requant
  refine ⟨fun h => ?_, fun h => ?_, ?_, ?_⟩
  · rw [max_eq_right (hmm.trans h.le), min_eq_left h.le]
    unfold packs16
    rw [min_eq_right hhi, max_eq_right (hlo.trans hmm)]
  · rw [max_eq_left h.le, min_eq_right hmm]
    unfold packs16
    rw [min_eq_right (hmm.trans hhi), max_eq_right hlo]
  · exact le_max_left _ _
  · exact max_le (by norm_num) (min_le_left _ _)

theorem c6_saturating_clamp_witness : requant paramsC6 0 = 10 :=
  (c6_saturating_clamp paramsC6 0 (by decide) (by decide) (by decide)).1 (by decide)

/-- C7: a tap whose indirection-entry pointer is (identically) the zero
sentinel contributes exactly zero to every lane's 32-bit accumulator — the
accumulation equals the fold that skips that tap entirely, which in
particular never reads the tap's packed weights, so the equality holds for
every possible packed weight content.  The zero buffer is assumed zero over
the bytes the tap reads (`8*t + 8` bytes through tile `t`). -/
theorem c7_zero_tap_contributes_nothing (e : Env) (cur t wb j k : Nat)
    (hk : k < 9) (hj : j < 8) (hz : e.itab cur k = e.zero)
    (hzero : ∀ d, d < 8 * t + 8 → e.imem (e.zero + d) = 0) :
    accLane e cur t wb j = accLaneMasked e cur t wb j k := by
  unfold accLane accLaneMasked
  apply foldl_skip_zero
  · have hptr : tapPtr e cur k = e.zero := by
      unfold tapPtr
      rw [hz]
      simp
    rw [hptr, show e.zero + 8 * t + j = e.zero + (8 * t + j) from by ring,
      hzero _ (by omega), sext8_zero, mullo32_zero_left]
  · exact wrap32_wrap32 _

theorem c7_zero_tap_witness :
    accLane envC7 0 0 0 0 = accLaneMasked envC7 0 0 0 0 4 :=
  c7_zero_tap_contributes_nothing envC7 0 0 0 0 4 (by decide) (by decide)
    (by decide) (by decide)

/-- C8: the input-row byte addresses a channel tile reads are, for each tap
`k` and lane `j`, exactly `(itab cur k) + 8*t + j` when the stored pointer is
identically the zero sentinel, and `(itab cur k) + input_offset + 8*t + j`
otherwise — the substitution is decided by pointer-identity comparison only,
so a tap keeps reading the zero buffer exactly when its pointer equals the
sentinel. -/
theorem c8_pointer_identity_substitution (e : Env) (cur t : Nat) :
    tileReadAddrs e cur t = (List.range 9).flatMap (fun k =>
      (List.range 8).map (fun j =>
        (if e.itab cur k = e.zero then e.itab cur k
         else e.itab cur k + e.inputOffset) + 8 * t + j)) := by
  unfold tileReadAddrs tapPtr
  refine congrArg ((List.range 9).flatMap) (funext fun k => ?_)
  refine congrArg (fun f => List.map f (List.range 8)) (funext fun j => ?_)
  by_cases h : e.itab cur k = e.zero
  · rw [if_neg (not_not_intro h), if_pos h]
  · rw [if_pos h, if_neg h]

/-- C9: with the multiplier, shift and its derived mask and threshold fixed,
the rounding error of requantization steps 2-3 (Q31 multiply-round followed
by shift-with-remainder-correction) is at most one unit in the last place
for `v` and for `-v`, hence the two magnitudes differ by at most one unit in
the last place.  Stated multiplied through by the scale `2^(31+shift)`; one
unit in the last place of the rescaled value corresponds to `2^(31+s)`
here. -/
theorem c9_rounding_symmetry (m v : Int) (s : Nat) (mask thr : Int)
    (hm1 : -(2 ^ 31) ≤ m) (hm2 : m < 2 ^ 31)
    (hv1 : -(2 ^ 31) < v) (hv2 : v < 2 ^ 31) (hs : s ≤ 31)
    (hmask : mask = derivedRemainderMask s)
    (hthr : thr = derivedRemainderThreshold s) :
    |scaleStep (q31 v m) s mask thr * 2 ^ (31 + s) - v * m| ≤ 2 ^ (31 + s) ∧
    |scaleStep (q31 (-v) m) s mask thr * 2 ^ (31 + s) - -v * m| ≤ 2 ^ (31 + s) ∧
    abs (|scaleStep (q31 v m) s mask thr * 2 ^ (31 + s) - v * m| -
        |scaleStep (q31 (-v) m) s mask thr * 2 ^ (31 + s) - -v * m|) ≤
      2 ^ (31 + s) := by
  subst hmask hthr
  unfold derivedRemainderMask derivedRemainderThreshold
  have key : ∀ a : Int, -(2 ^ 31) < a → a < 2 ^ 31 →
      |scaleStep (q31 a m) s (2 ^ s - 1) ((2 ^ s - 1) / 2) * 2 ^ (31 + s) - a * m|
        ≤ 2 ^ (31 + s) := by
    intro a ha1 ha2
    obtain ⟨hq_eq, hq_err⟩ := q31_spec ha1.le ha2 hm1 hm2
      (fun hc => absurd hc.1 (by omega))
    have hp_lb : -(2 ^ 31) ≤ q31 a m := wrap32_lb _
    have hp_ub : q31 a m < 2 ^ 31 := wrap32_ub _
    have herr2 := scaleStep_err hs hp_lb hp_ub
    have hY : |q31 a m * 2 ^ 31 - a * m| ≤ 2 ^ 30 := by
      rw [hq_eq]
      exact hq_err
    have hsplit : scaleStep (q31 a m) s (2 ^ s - 1) ((2 ^ s - 1) / 2) * 2 ^ (31 + s)
        - a * m =
        (scaleStep (q31 a m) s (2 ^ s - 1) ((2 ^ s - 1) / 2) * 2 ^ s - q31 a m)
            * 2 ^ 31 +
          (q31 a m * 2 ^ 31 - a * m) := by
      rw [pow_add]
      ring
    rw [hsplit]
    have hXabs : |2 * (scaleStep (q31 a m) s (2 ^ s - 1) ((2 ^ s - 1) / 2) * 2 ^ s
        - q31 a m)| ≤ 2 ^ s := by
      rw [abs_mul, abs_two]
      exact herr2
    have hX := abs_le.mp hXabs
    have hY2 := abs_le.mp hY
    have hB : (1 : Int) ≤ 2 ^ s := two_pow_pos_int s
    rw [pow_add, abs_le]
    constructor <;> nlinarith [hX.1, hX.2, hY2.1, hY2.2, hB]
  refine ⟨key v hv1 hv2, key (-v) (by omega) (by omega), ?_⟩
  have h1 := key v hv1 hv2
  have h2 := key (-v) (by omega) (by omega)
  have h3 := abs_nonneg (scaleStep (q31 v m) s (2 ^ s - 1) ((2 ^ s - 1) / 2)
    * 2 ^ (31 + s) - v * m)
  have h4 := abs_nonneg (scaleStep (q31 (-v) m) s (2 ^ s - 1) ((2 ^ s - 1) / 2)
    * 2 ^ (31 + s) - -v * m)
  rw [abs_le]
  constructor <;> omega

theorem c9_rounding_symmetry_witness :
    |scaleStep (q31 7 5) 1 1 0 * 2 ^ (31 + 1) - 7 * 5| ≤ 2 ^ (31 + 1) ∧
    |scaleStep (q31 (-7) 5) 1 1 0 * 2 ^ (31 + 1) - -7 * 5| ≤ 2 ^ (31 + 1) ∧
    abs (|scaleStep (q31 7 5) 1 1 0 * 2 ^ (31 + 1) - 7 * 5| -
        |scaleStep (q31 (-7) 5) 1 1 0 * 2 ^ (31 + 1) - -7 * 5|) ≤ 2 ^ (31 + 1) :=
  c9_rounding_symmetry 5 7 1 1 0 (by decide) (by decide) (by decide) (by decide)
    (by decide) (by decide) (by decide)

/-- C10: the depth-to-space kernel writes, for every tuple
`(iy, by, ix, bx, c)` with `iy < input_height`, `by < block_size`,
`ix < input_width`, `bx < block_size`, `c < output_channels`, the 32-bit
output element at byte offset
`(iy*bs+by)*output_height_stride + (ix*bs+bx)*output_width_stride + 4*c`
equal to the input element at byte offset
`(c*bs*bs + by*bs + bx)*input_channel_stride + iy*input_height_stride + 4*ix`,
each such element written exactly once and nothing else: the write trace is
exactly the list of these writes, one per tuple, in loop order. -/
theorem c10_depth_to_space (e : D2SEnv)
    (h1 : 0 < e.output_channels) (h2 : 0 < e.input_height)
    (h3 : 0 < e.input_width) (h4 : 0 < e.block_size) :
    xnn_x32_depth_to_space_chw2hwc_ukernel__scalar_c1_ib2 e = d2sSpec e := by
  unfold xnn_x32_depth_to_space_chw2hwc_ukernel__scalar_c1_ib2 d2sSpec
  rw [iyLoop_trace]
  refine congrArg ((List.range e.input_height).flatMap) (funext fun iy => ?_)
  rw [byLoop_trace]
  refine congrArg ((List.range e.block_size).flatMap) (funext fun b_y => ?_)
  rw [ixLoop_trace]
  refine congrArg ((List.range e.input_width).flatMap) (funext fun ix => ?_)
  rw [bxLoop_trace]
  refine congrArg ((List.range e.block_size).flatMap) (funext fun bx => ?_)
  rw [cLoop_trace]
  refine congrArg (fun f => List.map f (List.range e.output_channels))
    (funext fun c => ?_)
  simp only [Write.mk.injEq]
  exact ⟨by ring, congrArg e.imem (by ring)⟩

theorem c10_depth_to_space_witness :
    xnn_x32_depth_to_space_chw2hwc_ukernel__scalar_c1_ib2 envD2S = d2sSpec envD2S :=
  c10_depth_to_space envD2S (by decide) (by decide) (by decide) (by decide)

end XnnPack
